import Mathlib

/-!
Verification of repoharvester (repoharvester.go) against its natural-language
specification.  The Go program is shallowly embedded: Go strings are modelled
as `List Char` (the operations used by the program — `strings.LastIndex`,
byte slicing, `strings.Split`, suffix tests — act on ASCII data, where byte
indices and character indices coincide), Go maps are modelled as association
lists with Go's lookup/insert semantics (a missing key reads as the zero
value), `uint64`/`uint32`/`int8` quantities that never overflow in the
modelled code are `Nat`, and operations that can panic return `Option`
(`none` = runtime panic).  Pointer identity of `*Repo` (each record is
heap-allocated once per channel receive) is modelled by value identity of
`Repo`, which is faithful because every repository record flows through the
pipeline exactly once.
-/

namespace RepoHarvester

/-! ## Role bitmask constants (repoharvester.go lines 41-48).
`ROLE_AUTHOR = 1 << 0`, `ROLE_COMMITTER = 1 << 1` are Go `int8` values;
they and every bitwise-OR combination fit in `Nat` without overflow. -/

def ROLE_AUTHOR : Nat := 1

def ROLE_COMMITTER : Nat := 2

def ROLE_NAME_COMMITTER : String := "Committer"

def ROLE_NAME_AUTHOR : String := "Author"

def ROLE_NAME_BOTH : String := "Author+Committer"

def ROLE_MASK_BOTH : Nat := ROLE_AUTHOR ||| ROLE_COMMITTER

/-- `type Repo struct` (lines 27-33): remote identity plus the local path
attached by the clone stage.  `Size` is `uint64`, modelled as `Nat`. -/
structure Repo where
  name : String
  clone_url : String
  size : Nat
  fork : Bool
  local_path : String
deriving DecidableEq, Repr

/-- `type EmailContext struct` (lines 35-39): the (repository, email, role)
association emitted by the extractor stage.  The Go field is a `*Repo`;
pointer identity is modelled by value identity (see file header). -/
structure EmailContext where
  repo : Repo
  emailAddress : String
  role : Nat
deriving DecidableEq, Repr

/-- `type EmailGroupByRepoKey struct` (lines 50-53): the key of the grouped
association map. -/
structure EmailGroupByRepoKey where
  email : String
  repo : Repo
deriving DecidableEq, Repr

/-! ## Association lists modelling Go maps.
`alGet` is Go map lookup (`v, ok := m[k]`); `alSet` is Go map assignment
(`m[k] = v`): it overwrites the entry when the key is present and otherwise
adds a new entry. -/

def alGet {K V : Type} [DecidableEq K] : List (K × V) → K → Option V
  | [], _ => none
  | (k', v') :: rest, k => if k = k' then some v' else alGet rest k

def alSet {K V : Type} [DecidableEq K] : List (K × V) → K → V → List (K × V)
  | [], k, v => [(k, v)]
  | (k', v') :: rest, k, v =>
      if k = k' then (k, v) :: rest else (k', v') :: alSet rest k v

theorem alGet_alSet_self {K V : Type} [DecidableEq K]
    (m : List (K × V)) (k : K) (v : V) : alGet (alSet m k v) k = some v := by
  induction m with
  | nil => simp [alGet, alSet]
  | cons p rest ih =>
      by_cases h : k = p.1
      · simp [alSet, alGet, h]
      · simp [alSet, alGet, h, ih]

theorem alGet_alSet_ne {K V : Type} [DecidableEq K]
    (m : List (K × V)) (k k' : K) (v : V) (h : k' ≠ k) :
    alGet (alSet m k v) k' = alGet m k' := by
  induction m with
  | nil => simp [alGet, alSet, h]
  | cons p rest ih =>
      by_cases hk : k = p.1
      · subst hk
        simp [alSet, alGet, h]
      · by_cases hk' : k' = p.1
        · simp [alSet, alGet, hk, hk']
        · simp [alSet, alGet, hk, hk', ih]

theorem mem_alSet {K V : Type} [DecidableEq K]
    (m : List (K × V)) (k : K) (v : V) (x : K × V) (hx : x ∈ alSet m k v) :
    x = (k, v) ∨ x ∈ m := by
  induction m with
  | nil => simpa [alSet] using hx
  | cons p rest ih =>
      obtain ⟨k', v'⟩ := p
      by_cases h : k = k'
      · subst h
        simp only [alSet, if_pos rfl] at hx
        rcases List.mem_cons.mp hx with h1 | h2
        · exact Or.inl h1
        · exact Or.inr (List.mem_cons_of_mem _ h2)
      · simp only [alSet, if_neg h] at hx
        rcases List.mem_cons.mp hx with h1 | h2
        · exact Or.inr (h1 ▸ List.mem_cons_self _ _)
        · rcases ih h2 with h3 | h4
          · exact Or.inl h3
          · exact Or.inr (List.mem_cons_of_mem _ h4)

theorem alGet_some_mem {K V : Type} [DecidableEq K]
    (m : List (K × V)) (k : K) (v : V) (h : alGet m k = some v) : (k, v) ∈ m := by
  induction m with
  | nil => simp [alGet] at h
  | cons p rest ih =>
      obtain ⟨k', v'⟩ := p
      by_cases hk : k = k'
      · subst hk
        simp [alGet] at h
        subst h
        exact List.mem_cons_self _ _
      · simp only [alGet, if_neg hk] at h
        exact List.mem_cons_of_mem _ (ih h)

theorem alGet_eq_none_iff {K V : Type} [DecidableEq K]
    (m : List (K × V)) (k : K) : alGet m k = none ↔ k ∉ m.map Prod.fst := by
  induction m with
  | nil => simp [alGet]
  | cons p rest ih =>
      by_cases hk : k = p.1
      · simp [alGet, hk]
      · simp [alGet, hk, ih]

/-! ## Stage 6 — grouping (`emails_by_repo`, lines 865-880).
The Go loop executes `emails_grouped[key] |= context.Role` for every
`EmailContext` received; a missing key reads as the zero value `0`. -/

/-- The key built from an `EmailContext` at line 872. -/
def contextKey (c : EmailContext) : EmailGroupByRepoKey :=
  { email := c.emailAddress, repo := c.repo }

/-- Go map read with zero default: `emails_grouped[key]` for a possibly
missing key. -/
def lookupRole (m : List (EmailGroupByRepoKey × Nat)) (k : EmailGroupByRepoKey) : Nat :=
  (alGet m k).getD 0

/-- One iteration of the grouping loop:
`emails_grouped[key] |= context.Role` (line 872). -/
def emails_by_repo_step (m : List (EmailGroupByRepoKey × Nat)) (c : EmailContext) :
    List (EmailGroupByRepoKey × Nat) :=
  alSet m (contextKey c) (lookupRole m (contextKey c) ||| c.role)

/-- `emails_by_repo` (lines 865-880): fold of the grouping loop over the
sequence of associations received on the `contexts` channel. -/
def emails_by_repo (contexts : List EmailContext) : List (EmailGroupByRepoKey × Nat) :=
  contexts.foldl emails_by_repo_step []

/-- The roles of the associations received for one (email, repository) key. -/
def rolesFor (contexts : List EmailContext) (k : EmailGroupByRepoKey) : List Nat :=
  (contexts.filter fun c => decide (contextKey c = k)).map EmailContext.role

/-- Bitwise-OR fold starting from the Go zero value. -/
def orFold (roles : List Nat) : Nat :=
  roles.foldl (fun a r => a ||| r) 0

theorem lookupRole_step_self (m : List (EmailGroupByRepoKey × Nat))
    (c : EmailContext) :
    lookupRole (emails_by_repo_step m c) (contextKey c)
      = lookupRole m (contextKey c) ||| c.role := by
  simp [emails_by_repo_step, lookupRole, alGet_alSet_self]

theorem lookupRole_step_ne (m : List (EmailGroupByRepoKey × Nat))
    (c : EmailContext) (k : EmailGroupByRepoKey) (h : contextKey c ≠ k) :
    lookupRole (emails_by_repo_step m c) k = lookupRole m k := by
  simp [emails_by_repo_step, lookupRole, alGet_alSet_ne _ _ _ _ (Ne.symm h)]

theorem lookupRole_foldl (contexts : List EmailContext)
    (m : List (EmailGroupByRepoKey × Nat)) (k : EmailGroupByRepoKey) :
    lookupRole (contexts.foldl emails_by_repo_step m) k
      = (rolesFor contexts k).foldl (fun a r => a ||| r) (lookupRole m k) := by
  induction contexts generalizing m with
  | nil => simp [rolesFor]
  | cons c cs ih =>
      by_cases h : contextKey c = k
      · rw [List.foldl_cons, ih]
        have hstep := lookupRole_step_self m c
        rw [h] at hstep
        simp [rolesFor, h, hstep]
      · rw [List.foldl_cons, ih]
        rw [lookupRole_step_ne m c k h]
        simp [rolesFor, h]

/-- C1: for every (email, repository) key, the accumulated role in the
grouped association map is the bitwise-OR fold of the roles of all
`EmailContext` items received for that key; receiving (author, committer)
in either order yields `ROLE_MASK_BOTH`, and a duplicated (author) item
leaves the value at what a single occurrence produces. -/
theorem C1_grouping_or_fold (contexts : List EmailContext)
    (k : EmailGroupByRepoKey) (repo : Repo) (email : String) :
    lookupRole (emails_by_repo contexts) k = orFold (rolesFor contexts k)
    ∧ lookupRole
        (emails_by_repo [⟨repo, email, ROLE_AUTHOR⟩, ⟨repo, email, ROLE_COMMITTER⟩])
        ⟨email, repo⟩ = ROLE_MASK_BOTH
    ∧ lookupRole
        (emails_by_repo [⟨repo, email, ROLE_COMMITTER⟩, ⟨repo, email, ROLE_AUTHOR⟩])
        ⟨email, repo⟩ = ROLE_MASK_BOTH
    ∧ lookupRole
        (emails_by_repo [⟨repo, email, ROLE_AUTHOR⟩, ⟨repo, email, ROLE_AUTHOR⟩])
        ⟨email, repo⟩
      = lookupRole (emails_by_repo [⟨repo, email, ROLE_AUTHOR⟩]) ⟨email, repo⟩ := by
  refine ⟨lookupRole_foldl contexts [] k, ?_, ?_, ?_⟩ <;>
    simp [emails_by_repo, emails_by_repo_step, contextKey, lookupRole,
      alGet, alSet, ROLE_AUTHOR, ROLE_COMMITTER, ROLE_MASK_BOTH]

/-! ## Stage 5 — deduplication (`emails_dedup`, lines 846-863).
For every raw email received, the Go loop inserts the key with value `0`
when it is absent: `if _, ok := emails_deduped[email]; !ok
{ emails_deduped[email] = 0 }`. -/

/-- One iteration of the dedup loop (lines 853-855). -/
def emails_dedup_step (m : List (String × Nat)) (email : String) :
    List (String × Nat) :=
  match alGet m email with
  | some _ => m
  | none => m ++ [(email, 0)]

/-- `emails_dedup` (lines 846-863): fold of the dedup loop over the raw
email sequence received on the `emails` channel. -/
def emails_dedup (emails : List String) : List (String × Nat) :=
  emails.foldl emails_dedup_step []

theorem mem_keys_dedup_foldl (l : List String) (m : List (String × Nat))
    (e : String) :
    e ∈ (l.foldl emails_dedup_step m).map Prod.fst
      ↔ e ∈ m.map Prod.fst ∨ e ∈ l := by
  induction l generalizing m with
  | nil => simp
  | cons a l ih =>
      rw [List.foldl_cons, ih]
      unfold emails_dedup_step
      cases hget : alGet m a with
      | some v =>
          have ha : a ∈ m.map Prod.fst := by
            have := alGet_some_mem m a v hget
            exact List.mem_map.mpr ⟨(a, v), this, rfl⟩
          constructor
          · rintro (h | h)
            · exact Or.inl h
            · exact Or.inr (List.mem_cons_of_mem _ h)
          · rintro (h | h)
            · exact Or.inl h
            · rcases List.mem_cons.mp h with rfl | h
              · exact Or.inl ha
              · exact Or.inr h
      | none =>
          simp only [List.map_append, List.mem_append, List.map_cons,
            List.map_nil, List.mem_singleton, List.mem_cons]
          tauto

theorem nodup_keys_dedup_foldl (l : List String) (m : List (String × Nat))
    (hm : (m.map Prod.fst).Nodup) :
    ((l.foldl emails_dedup_step m).map Prod.fst).Nodup := by
  induction l generalizing m with
  | nil => simpa using hm
  | cons a l ih =>
      rw [List.foldl_cons]
      apply ih
      unfold emails_dedup_step
      cases hget : alGet m a with
      | some v => exact hm
      | none =>
          rw [List.map_append]
          simp only [List.map_cons, List.map_nil]
          apply List.Nodup.append hm (List.nodup_singleton a)
          intro x hx hx'
          rcases List.mem_singleton.mp hx' with rfl
          exact (alGet_eq_none_iff m x).mp hget hx

/-- C2: feeding the dedup stage any permutation of a multiset of raw email
strings yields a map with the same key membership and the same size, equal
to the set of distinct email strings of the multiset. -/
theorem C2_dedup_order_independent (l l' : List String) (h : l.Perm l') :
    (∀ e, e ∈ (emails_dedup l).map Prod.fst ↔ e ∈ (emails_dedup l').map Prod.fst)
    ∧ (emails_dedup l).length = (emails_dedup l').length
    ∧ (∀ e, e ∈ (emails_dedup l).map Prod.fst ↔ e ∈ l)
    ∧ (emails_dedup l).length = l.dedup.length := by
  have hmem : ∀ (t : List String) e, e ∈ (emails_dedup t).map Prod.fst ↔ e ∈ t := by
    intro t e
    simpa using mem_keys_dedup_foldl t [] e
  have hnd : ∀ t : List String, ((emails_dedup t).map Prod.fst).Nodup := fun t =>
    nodup_keys_dedup_foldl t [] (by simp)
  have hlen : ∀ t : List String, (emails_dedup t).length = t.dedup.length := by
    intro t
    have hperm : List.Perm ((emails_dedup t).map Prod.fst) t.dedup := by
      refine (List.perm_ext_iff_of_nodup (hnd t) (List.nodup_dedup t)).mpr ?_
      intro a
      rw [hmem t a, List.mem_dedup]
    calc (emails_dedup t).length
        = ((emails_dedup t).map Prod.fst).length := (List.length_map _ _).symm
      _ = t.dedup.length := hperm.length_eq
  refine ⟨?_, ?_, hmem l, hlen l⟩
  · intro e
    rw [hmem l e, hmem l' e, h.mem_iff]
  · rw [hlen l, hlen l', h.dedup.length_eq]

/-- C2 witness: a concrete multiset and a concrete permutation of it. -/
theorem C2_dedup_order_independent_witness :
    (["a", "b", "a"] : List String).Perm ["b", "a", "a"]
    ∧ (emails_dedup ["a", "b", "a"]).length = (emails_dedup ["b", "a", "a"]).length :=
  ⟨by decide,
   (C2_dedup_order_independent ["a", "b", "a"] ["b", "a", "a"] (by decide)).2.1⟩

/-! ## Stage 3 — cloning (`git_ops_clone`, lines 604-708).
For each record received: the size filter (lines 643-647) skips the record,
counting it as completed, when `size_filter > 0 && repo.Size > size_filter`;
otherwise a `git clone -n -q` subprocess runs.  On success the record is
forwarded with `local_path = filepath.Join(working_dir, repo.Name)`
(lines 693-701); on any failure (context kill or genuine error) the error
counter is incremented and the record is not forwarded (lines 666-691). -/

/-- Outcome of the `cmd.Run()` clone subprocess, as classified by the Go
error handling: success, a context-induced kill (`!Exited() &&
ExitCode() == -1`), or any other failure. -/
inductive CloneResult where
  | success
  | ctxKill
  | failure
deriving DecidableEq, Repr

/-- What processing one record does: counter deltas, the forwarded record
(if any) and whether a clone subprocess was started. -/
structure CloneEffect where
  completedDelta : Nat
  errorDelta : Nat
  forwarded : Option Repo
  attempted : Bool
deriving DecidableEq, Repr

/-- `filepath.Join(working_dir, repo.Name)` for the cloned path; the claims
never depend on the path's internal shape. -/
def pathJoin (dir name : String) : String :=
  dir ++ "/" ++ name

/-- The effect of the size-filter skip branch (lines 643-647): completion
counter incremented, no error, no forwarding, no subprocess. -/
def sizeSkipEffect : CloneEffect :=
  { completedDelta := 1, errorDelta := 0, forwarded := none, attempted := false }

/-- Per-record behaviour of `git_ops_clone` (lines 643-703), with the
subprocess outcome supplied as `result`.  The uncancelled path is modelled:
a `ctx.Done()` race is a whole-pipeline shutdown, not a per-record
decision. -/
def git_ops_clone_record (size_filter : Nat) (working_dir : String)
    (repo : Repo) (result : CloneResult) : CloneEffect :=
  if 0 < size_filter ∧ size_filter < repo.size then
    sizeSkipEffect
  else
    match result with
    | CloneResult.success =>
        { completedDelta := 1, errorDelta := 0,
          forwarded := some { repo with local_path := pathJoin working_dir repo.name },
          attempted := true }
    | CloneResult.ctxKill =>
        { completedDelta := 0, errorDelta := 1, forwarded := none, attempted := true }
    | CloneResult.failure =>
        { completedDelta := 0, errorDelta := 1, forwarded := none, attempted := true }

/-- The records Stage 3 forwards from a whole input sequence, given each
record's subprocess outcome. -/
def git_ops_clone_stage (size_filter : Nat) (working_dir : String)
    (results : Repo → CloneResult) (repos : List Repo) : List Repo :=
  repos.filterMap fun repo =>
    (git_ops_clone_record size_filter working_dir repo (results repo)).forwarded

/-- C3: a record of size `S` under threshold `T` is skipped (counted as
completed, not as error, no clone attempt, not forwarded) exactly when
`T > 0` and `S > T`; with `T = 0` no record is skipped on size grounds. -/
theorem C3_size_filter (T : Nat) (working_dir : String) (repo : Repo)
    (result : CloneResult) :
    (git_ops_clone_record T working_dir repo result = sizeSkipEffect
      ↔ 0 < T ∧ T < repo.size)
    ∧ (T = 0 → (git_ops_clone_record T working_dir repo result).attempted = true) := by
  constructor
  · constructor
    · intro h
      by_contra hc
      rw [git_ops_clone_record.eq_def, if_neg hc] at h
      cases result <;> simp [sizeSkipEffect] at h
    · intro h
      rw [git_ops_clone_record.eq_def, if_pos h]
  · intro hT
    subst hT
    rw [git_ops_clone_record.eq_def, if_neg (by simp)]
    cases result <;> rfl

/-- C3 witness: threshold 5, record of size 10 is skipped; threshold 0
never skips. -/
theorem C3_size_filter_witness :
    git_ops_clone_record 5 "wd" ⟨"r", "u", 10, false, ""⟩ CloneResult.success
      = sizeSkipEffect
    ∧ (git_ops_clone_record 0 "wd" ⟨"r", "u", 10, false, ""⟩
        CloneResult.success).attempted = true :=
  ⟨(C3_size_filter 5 "wd" ⟨"r", "u", 10, false, ""⟩ CloneResult.success).1.mpr
      (by decide),
   (C3_size_filter 0 "wd" ⟨"r", "u", 10, false, ""⟩ CloneResult.success).2 rfl⟩

/-! ## Stage 2 — decode and fork filter (`parse_github_response`,
lines 513-602).  For each decoded record the loop at lines 579-590 skips
the record when `repo.Fork && fork_filter` and otherwise forwards it
unchanged on the output channel. -/

/-- The records Stage 2 emits from a decoded batch (lines 579-590). -/
def parse_github_response_emit (fork_filter : Bool) (decoded : List Repo) :
    List Repo :=
  decoded.filter fun repo => !(repo.fork && fork_filter)

/-- C4: with the fork filter enabled, a `fork = true` record is not emitted
by Stage 2 and no record derived from it appears in Stage 3's output; with
the filter disabled, every decoded batch passes through unchanged. -/
theorem C4_fork_filter (r : Repo) (decoded : List Repo) (h : r.fork = true) :
    r ∉ parse_github_response_emit true decoded
    ∧ (∀ T working_dir results r',
        r' ∈ git_ops_clone_stage T working_dir results
              (parse_github_response_emit true decoded) → r' ≠ r)
    ∧ parse_github_response_emit false decoded = decoded := by
  refine ⟨?_, ?_, ?_⟩
  · intro hmem
    have := List.of_mem_filter hmem
    simp [h] at this
  · intro T working_dir results r' hmem
    obtain ⟨r0, hr0, hfwd⟩ := List.mem_filterMap.mp hmem
    have hr0fork : r0.fork = false := by
      have := List.of_mem_filter hr0
      simpa using this
    intro hEq
    subst hEq
    rw [git_ops_clone_record.eq_def] at hfwd
    by_cases hsz : 0 < T ∧ T < r0.size
    · rw [if_pos hsz] at hfwd
      simp [sizeSkipEffect] at hfwd
    · rw [if_neg hsz] at hfwd
      cases hres : results r0 <;> rw [hres] at hfwd <;> simp at hfwd
      have : r'.fork = r0.fork := by rw [← hfwd]
      rw [h, hr0fork] at this
      exact Bool.true_eq_false.mp this
  · simp [parse_github_response_emit]

/-- C4 witness: a concrete forked record is dropped when the filter is on
and passed through when it is off. -/
theorem C4_fork_filter_witness :
    (Repo.mk "f" "u" 1 true "").fork = true
    ∧ Repo.mk "f" "u" 1 true "" ∉
        parse_github_response_emit true [Repo.mk "f" "u" 1 true ""]
    ∧ parse_github_response_emit false [Repo.mk "f" "u" 1 true ""]
        = [Repo.mk "f" "u" 1 true ""] :=
  ⟨rfl,
   (C4_fork_filter (Repo.mk "f" "u" 1 true "") [Repo.mk "f" "u" 1 true ""] rfl).1,
   (C4_fork_filter (Repo.mk "f" "u" 1 true "") [Repo.mk "f" "u" 1 true ""] rfl).2.2⟩

/-! ## Stage 1 — fetch and pagination (`get_repos_from_github`,
lines 415-511).  Inside the goroutine, each URL popped from the work queue
is fetched in a retry loop (lines 472-485): `fetch_counter` starts at 1; on
a request error, if `fetch_counter >= 4` the stage logs an error,
increments its error counter, decrements its active counter and returns
(ending the whole goroutine — the deferred statements release the
semaphore and close the `bodies` and `urls` channels, lines 423-431);
otherwise `fetch_counter++` and the request is retried.  On success the
body is emitted and a "next" link, when present, is pushed back onto the
work queue. -/

/-- Outcome of the per-URL retry loop: `success n` = the request succeeded
on attempt `n`; `aborted n` = attempt `n` failed with the retry budget
exhausted, terminating the whole run. -/
inductive FetchOutcome where
  | success (attempt : Nat)
  | aborted (attempt : Nat)
deriving DecidableEq, Repr

/-- The retry loop of lines 472-485.  `fails n = true` means the `c.Do(req)`
call on attempt `n` returns an error.  The loop runs at most 4 attempts
(counter values 1..4), so fuel 4 is exact; the fuel-exhausted arm is
unreachable from `get_url_fetch`. -/
def fetch_url_loop (fails : Nat → Bool) : Nat → Nat → FetchOutcome
  | 0, fetch_counter => FetchOutcome.aborted fetch_counter
  | fuel + 1, fetch_counter =>
      if fails fetch_counter then
        if 4 ≤ fetch_counter then FetchOutcome.aborted fetch_counter
        else fetch_url_loop fails fuel (fetch_counter + 1)
      else FetchOutcome.success fetch_counter

/-- One URL's fetch, entering the loop with `fetch_counter = 1`
(line 462). -/
def get_url_fetch (fails : Nat → Bool) : FetchOutcome :=
  fetch_url_loop fails 4 1

/-- The externally visible actions of the Stage 1 goroutine that the claims
mention. -/
inductive FetchAction where
  | emitBody
  | logError
  | incErrorCount
  | decActiveCount
  | releaseSemaphore
  | closeBodies
  | closeUrls
  | cancelToken
deriving DecidableEq, Repr

/-- Actions on every premature or normal return of the goroutine: the
deferred calls of lines 423-431 run in LIFO order (`g_semaphore.Release`,
`close(bodies)`, `close(urls)`). -/
def fetch_terminal_actions : List FetchAction :=
  [FetchAction.releaseSemaphore, FetchAction.closeBodies, FetchAction.closeUrls]

/-- Actions of the retry-exhaustion branch (lines 475-479) followed by the
deferred calls: log the error, increment the error counter, decrement the
active counter, then release the semaphore and close both channels.
`cancel()` (the context's cancellation) is not among them: the branch only
returns from the goroutine. -/
def fetch_retry_exhausted_actions : List FetchAction :=
  [FetchAction.logError, FetchAction.incErrorCount, FetchAction.decActiveCount]
    ++ fetch_terminal_actions

/-- The pagination walk of the Stage 1 goroutine, abstracted over the pages
it would visit in order: each page has a failure oracle for its retry loop.
Returns the number of bodies emitted and the goroutine's action trace.  An
aborted page ends the walk; later pages are never visited (the `return` at
line 479 leaves the whole `for` loop). -/
def fetcher_walk : List (Nat → Bool) → Nat × List FetchAction
  | [] => (0, fetch_terminal_actions)
  | f :: rest =>
      match get_url_fetch f with
      | FetchOutcome.success _ =>
          ((fetcher_walk rest).1 + 1, FetchAction.emitBody :: (fetcher_walk rest).2)
      | FetchOutcome.aborted _ => (0, fetch_retry_exhausted_actions)


theorem get_url_fetch_eq (fails : Nat → Bool) :
    get_url_fetch fails =
      if fails 1 then
        if fails 2 then
          if fails 3 then
            if fails 4 then FetchOutcome.aborted 4 else FetchOutcome.success 4
          else FetchOutcome.success 3
        else FetchOutcome.success 2
      else FetchOutcome.success 1 := rfl

theorem get_url_fetch_success_bound (fails : Nat → Bool) (n : Nat)
    (h : get_url_fetch fails = FetchOutcome.success n) :
    1 ≤ n ∧ n ≤ 4 := by
  rw [get_url_fetch_eq] at h
  cases h1 : fails 1 <;> cases h2 : fails 2 <;> cases h3 : fails 3 <;>
    cases h4 : fails 4 <;> rw [h1, h2, h3, h4] at h <;> simp at h <;> omega

theorem get_url_fetch_aborted_eq_four (fails : Nat → Bool) (n : Nat)
    (h : get_url_fetch fails = FetchOutcome.aborted n) :
    n = 4 ∧ ∀ m, 1 ≤ m → m ≤ 4 → fails m = true := by
  rw [get_url_fetch_eq] at h
  cases h1 : fails 1 <;> cases h2 : fails 2 <;> cases h3 : fails 3 <;>
    cases h4 : fails 4 <;> rw [h1, h2, h3, h4] at h <;> simp at h
  refine ⟨h.symm, ?_⟩
  intro m h1m hm4
  interval_cases m <;> assumption

theorem get_url_fetch_all_fail (fails : Nat → Bool)
    (h : ∀ m, 1 ≤ m → m ≤ 4 → fails m = true) :
    get_url_fetch fails = FetchOutcome.aborted 4 := by
  rw [get_url_fetch_eq, h 1 (by omega) (by omega), h 2 (by omega) (by omega),
    h 3 (by omega) (by omega), h 4 (by omega) (by omega)]
  simp

theorem fetcher_walk_aborts (pre : List (Nat → Bool)) :
    ∃ k, k ≤ pre.length
      ∧ fetcher_walk (pre ++ [fun _ => true])
          = (k, List.replicate k FetchAction.emitBody ++ fetch_retry_exhausted_actions) := by
  induction pre with
  | nil =>
      refine ⟨0, by simp, ?_⟩
      rw [List.nil_append]
      unfold fetcher_walk
      rw [get_url_fetch_all_fail (fun _ => true) (fun m _ _ => rfl)]
      rfl
  | cons f rest ih =>
      obtain ⟨k, hk, hwalk⟩ := ih
      rw [List.cons_append]
      unfold fetcher_walk
      cases hres : get_url_fetch f with
      | success n =>
          refine ⟨k + 1, by simpa using Nat.succ_le_succ hk, ?_⟩
          rw [hwalk]
          simp [List.replicate_succ]
      | aborted n => exact ⟨0, by simp, rfl⟩

theorem fetcher_walk_truncates (pre post : List (Nat → Bool)) :
    fetcher_walk (pre ++ (fun _ => true) :: post)
      = fetcher_walk (pre ++ [fun _ => true]) := by
  induction pre with
  | nil =>
      simp only [List.nil_append]
      unfold fetcher_walk
      rw [get_url_fetch_all_fail (fun _ => true) (fun m _ _ => rfl)]
  | cons f rest ih =>
      simp only [List.cons_append]
      unfold fetcher_walk
      cases hres : get_url_fetch f <;> rw [ih]

/-- C5: a transient failure is retried up to 4 total attempts per URL; an
abort happens exactly on the 4th consecutive failure, and then the stage
logs an error, increments its error count, decrements its active count,
closes its work queue and its output queue, and ends the whole pagination
walk — pages after the failing one are never fetched. -/
theorem C5_retry_exhaustion (fails : Nat → Bool) (pre post : List (Nat → Bool)) :
    (∀ n, get_url_fetch fails = FetchOutcome.success n → 1 ≤ n ∧ n ≤ 4)
    ∧ (∀ n, get_url_fetch fails = FetchOutcome.aborted n →
        n = 4 ∧ ∀ m, 1 ≤ m → m ≤ 4 → fails m = true)
    ∧ ((∀ m, 1 ≤ m → m ≤ 4 → fails m = true) →
        get_url_fetch fails = FetchOutcome.aborted 4)
    ∧ fetcher_walk (pre ++ (fun _ => true) :: post)
        = fetcher_walk (pre ++ [fun _ => true])
    ∧ (∃ k, k ≤ pre.length
        ∧ fetcher_walk (pre ++ (fun _ => true) :: post)
            = (k, List.replicate k FetchAction.emitBody
                    ++ fetch_retry_exhausted_actions))
    ∧ FetchAction.logError ∈ fetch_retry_exhausted_actions
    ∧ FetchAction.incErrorCount ∈ fetch_retry_exhausted_actions
    ∧ FetchAction.decActiveCount ∈ fetch_retry_exhausted_actions
    ∧ FetchAction.closeUrls ∈ fetch_retry_exhausted_actions
    ∧ FetchAction.closeBodies ∈ fetch_retry_exhausted_actions := by
  refine ⟨get_url_fetch_success_bound fails, get_url_fetch_aborted_eq_four fails,
    get_url_fetch_all_fail fails, fetcher_walk_truncates pre post,
    ?_, ?_, ?_, ?_, ?_, ?_⟩
  · rw [fetcher_walk_truncates pre post]
    exact fetcher_walk_aborts pre
  all_goals decide

/-- C7 counterexample: the retry-exhaustion branch of the Fetcher
(lines 475-479 and the deferred calls of lines 423-431) does not invoke
the shared context's `cancel()`: the cancellation token is not among the
actions it performs. -/
theorem C7_counterexample_no_cancel :
    FetchAction.cancelToken ∉ fetch_retry_exhausted_actions := by decide

/-- C7 amended: exhaustion of the Fetcher's retry budget does not trigger
the shared cancellation token; the branch terminates the Fetcher's run and
closes its work queue and output queue, so downstream stages observe
shutdown through cascading queue closure rather than through the token
(`cancel()` is invoked only by the interrupt-signal goroutine at
line 1173 and by `main` after both aggregators finish, line 1207). -/
theorem C7_amended_queue_close_shutdown :
    FetchAction.cancelToken ∉ fetch_retry_exhausted_actions
    ∧ FetchAction.closeUrls ∈ fetch_retry_exhausted_actions
    ∧ FetchAction.closeBodies ∈ fetch_retry_exhausted_actions := by
  decide

/-! ## Link-header parsing (`get_total_pages`, lines 389-413).
The Go function takes the `Link` header value (`http_header["Link"]` uses
`val[0]`, modelled as an `Option (List Char)`) and the current
`total_pages` counter.  If `total_pages > 0` it returns immediately.
Otherwise it splits the value on `", "`, looks for the first entry ending
in `"last"`, takes that entry's URL part (`strings.Split(value, "; ")[0]`),
slices the single byte `url[len(url)-2 : len(url)-1]` and parses it with
`strconv.ParseUint(…, 10, 32)`, panicking on a parse error; with no
`Link` header, or with no `"last"` entry, the count becomes 1. -/

/-- Byte-list comparison used by `goHasSuffix` and `goSplit`: does `s`
start with `p`? -/
def goStartsWith : List Char → List Char → Bool
  | _, [] => true
  | [], _ :: _ => false
  | a :: s, b :: p => a = b && goStartsWith s p

/-- `strings.HasSuffix(s, suffix)`. -/
def goHasSuffix (s suffix : List Char) : Bool :=
  goStartsWith s.reverse suffix.reverse

/-- Left-to-right scan of `strings.Split`: at each position, either the
separator matches (cut here) or one character moves into the accumulator.
`fuel` bounds the characters consumed; started at `s.length` with a
nonempty separator the zero-fuel arm is unreachable. -/
def goSplitAux (sep : List Char) : Nat → List Char → List Char → List (List Char)
  | _, acc, [] => [acc.reverse]
  | 0, acc, rest => [acc.reverse ++ rest]
  | fuel + 1, acc, a :: rest =>
      if goStartsWith (a :: rest) sep then
        acc.reverse :: goSplitAux sep fuel [] ((a :: rest).drop sep.length)
      else goSplitAux sep fuel (a :: acc) rest

/-- `strings.Split(s, sep)` for the nonempty separators the program uses
(`", "` and `"; "`). -/
def goSplit (s sep : List Char) : List (List Char) :=
  goSplitAux sep s.length [] s

/-- Go string slicing `s[low:high]`: `none` models the runtime panic when
the bounds are invalid (`0 ≤ low ≤ high ≤ len(s)` violated). -/
def goSlice (s : List Char) (low high : Int) : Option (List Char) :=
  if 0 ≤ low ∧ low ≤ high ∧ high ≤ (s.length : Int) then
    some ((s.drop low.toNat).take (high - low).toNat)
  else none

/-- `strconv.ParseUint(s, 10, 32)`: `none` models the error return (empty
input, a non-digit byte, or a value outside 32 bits). -/
def parseUintDec (s : List Char) : Option Nat :=
  if s = [] then none
  else
    match s.foldl
        (fun acc c =>
          match acc with
          | none => none
          | some n => if c.isDigit then some (n * 10 + (c.toNat - 48)) else none)
        (some 0) with
    | none => none
    | some n => if n < 2 ^ 32 then some n else none

/-- `get_total_pages` (lines 389-413).  The result is the new recorded
count; `none` models the `panic(err)` at line 402 (and an out-of-bounds
slice). -/
def get_total_pages (link : Option (List Char)) (total_pages : Nat) : Option Nat :=
  if 0 < total_pages then some total_pages
  else
    match link with
    | none => some 1
    | some val =>
        match (goSplit val (", ".toList)).find?
            (fun v => goHasSuffix v ("\"last\"".toList)) with
        | none => some 1
        | some value =>
            let url := (goSplit value ("; ".toList)).headD []
            match goSlice url ((url.length : Int) - 2) ((url.length : Int) - 1) with
            | none => none
            | some digits =>
                match parseUintDec digits with
                | none => none
                | some pages => some pages

theorem goSlice_penultimate (w : List Char) (c d : Char) :
    goSlice (w ++ [c, d]) (((w ++ [c, d]).length : Int) - 2)
        (((w ++ [c, d]).length : Int) - 1) = some [c] := by
  unfold goSlice
  rw [if_pos (by simp only [List.length_append, List.length_cons,
    List.length_nil]; omega)]
  have hlow : ((((w ++ [c, d]).length : Int) - 2)).toNat = w.length := by
    simp
  have hdiff : ((((w ++ [c, d]).length : Int) - 1)
      - (((w ++ [c, d]).length : Int) - 2)).toNat = 1 := by
    simp
    omega
  rw [hlow, hdiff]
  rw [show w ++ [c, d] = w ++ [c, d] from rfl, List.drop_left]
  rfl

/-- C6: the total-page extraction leaves a nonzero previously-recorded
count unchanged; with a `"last"`-relation entry present it takes the single
character before the trailing '>' of that entry's URL and parses it as the
decimal page count; with no pagination link at all it records 1 (and also
when a `Link` header has no `"last"` entry). -/
theorem C6_total_pages (link : Option (List Char)) (tp : Nat) :
    (0 < tp → get_total_pages link tp = some tp)
    ∧ get_total_pages none 0 = some 1
    ∧ (∀ val, link = some val →
        (goSplit val (", ".toList)).find?
            (fun v => goHasSuffix v ("\"last\"".toList)) = none →
        get_total_pages link 0 = some 1)
    ∧ (∀ val entry w c, link = some val →
        (goSplit val (", ".toList)).find?
            (fun v => goHasSuffix v ("\"last\"".toList)) = some entry →
        (goSplit entry ("; ".toList)).headD [] = w ++ [c, '>'] →
        get_total_pages link 0 = parseUintDec [c]) := by
  refine ⟨?_, rfl, ?_, ?_⟩
  · intro h
    unfold get_total_pages
    rw [if_pos h]
  · intro val hval hfind
    subst hval
    unfold get_total_pages
    rw [if_neg (by omega)]
    simp only []
    rw [hfind]
  · intro val entry w c hval hfind hurl
    subst hval
    unfold get_total_pages
    rw [if_neg (by omega)]
    simp only []
    rw [hfind]
    simp only []
    rw [hurl, goSlice_penultimate]
    cases h : parseUintDec [c] <;> simp [h]

/-! ## `strings.LastIndex(s, sub)` for a single-character `sub`:
the byte index of the last occurrence, or -1 when absent. -/

def goLastIndexChar : List Char → Char → Int
  | [], _ => -1
  | a :: rest, c =>
      if 0 ≤ goLastIndexChar rest c then goLastIndexChar rest c + 1
      else if a = c then 0 else -1

theorem goLastIndexChar_ge_neg_one (l : List Char) (c : Char) :
    -1 ≤ goLastIndexChar l c := by
  induction l with
  | nil => simp [goLastIndexChar]
  | cons a rest ih =>
      unfold goLastIndexChar
      split
      · omega
      · split <;> omega

theorem goLastIndexChar_lt_length (l : List Char) (c : Char) :
    goLastIndexChar l c < (l.length : Int) := by
  induction l with
  | nil => simp [goLastIndexChar]
  | cons a rest ih =>
      unfold goLastIndexChar
      simp only [List.length_cons]
      push_cast
      split
      · omega
      · split <;> omega

theorem goLastIndexChar_eq_neg_one_iff (l : List Char) (c : Char) :
    goLastIndexChar l c = -1 ↔ c ∉ l := by
  induction l with
  | nil => simp [goLastIndexChar]
  | cons a rest ih =>
      have hge := goLastIndexChar_ge_neg_one rest c
      unfold goLastIndexChar
      split
      case isTrue h =>
        have hc : c ∈ rest := by
          by_contra hnc
          have := ih.mpr hnc
          omega
        constructor
        · intro hEq
          exfalso
          omega
        · intro hnot
          exact absurd (List.mem_cons_of_mem a hc) hnot
      case isFalse h =>
        have hnc : c ∉ rest := ih.mp (by omega)
        split
        case isTrue ha =>
          constructor
          · intro hEq
            omega
          · intro hnot
            exact absurd (List.mem_cons.mpr (Or.inl ha.symm)) hnot
        case isFalse ha =>
          simp only [List.mem_cons]
          constructor
          · intro _
            rintro (h1 | h2)
            · exact ha h1.symm
            · exact hnc h2
          · intro _
            trivial

theorem goLastIndexChar_concat (l : List Char) (a c : Char) :
    goLastIndexChar (l ++ [a]) c
      = if a = c then (l.length : Int) else goLastIndexChar l c := by
  induction l with
  | nil =>
      by_cases ha : a = c <;> simp [goLastIndexChar, ha]
  | cons b rest ih =>
      by_cases ha : a = c
      · simp only [List.cons_append]
        unfold goLastIndexChar
        rw [ih, if_pos ha, if_pos ha, if_pos (Int.natCast_nonneg rest.length)]
        simp only [List.length_cons]
        push_cast
        ring
      · simp only [List.cons_append]
        unfold goLastIndexChar
        rw [ih, if_neg ha, if_neg ha]

theorem goLastIndexChar_append_cons (pre post : List Char) (c : Char)
    (h : c ∉ post) :
    goLastIndexChar (pre ++ c :: post) c = (pre.length : Int) := by
  induction pre with
  | nil =>
      simp only [List.nil_append, List.length_nil]
      unfold goLastIndexChar
      rw [(goLastIndexChar_eq_neg_one_iff post c).mpr h]
      norm_num
  | cons b rest ih =>
      simp only [List.cons_append, List.length_cons]
      unfold goLastIndexChar
      rw [ih, if_pos (Int.natCast_nonneg rest.length)]
      push_cast
      ring

theorem goLastIndexChar_decomp (l : List Char) (c : Char)
    (h : 0 ≤ goLastIndexChar l c) :
    ∃ pre post, l = pre ++ c :: post ∧ c ∉ post
      ∧ (pre.length : Int) = goLastIndexChar l c := by
  induction l with
  | nil => simp [goLastIndexChar] at h
  | cons a rest ih =>
      by_cases hr : 0 ≤ goLastIndexChar rest c
      · obtain ⟨pre, post, hEq, hpost, hlen⟩ := ih hr
        refine ⟨a :: pre, post, by rw [hEq, List.cons_append], hpost, ?_⟩
        unfold goLastIndexChar
        rw [if_pos hr]
        simp only [List.length_cons]
        push_cast
        omega
      · have hne : goLastIndexChar rest c = -1 := by
          have := goLastIndexChar_ge_neg_one rest c
          omega
        have hnc : c ∉ rest := (goLastIndexChar_eq_neg_one_iff rest c).mp hne
        by_cases ha : a = c
        · refine ⟨[], rest, by rw [ha, List.nil_append], hnc, ?_⟩
          unfold goLastIndexChar
          rw [if_neg hr, if_pos ha]
          simp
        · exfalso
          unfold goLastIndexChar at h
          rw [if_neg hr, if_neg ha] at h
          omega

/-! ## Stage 4 — email extraction (`git_ops_shortlog`, lines 710-844).
Each scanned output line is processed at line 815 with
`email := full_author[strings.LastIndex(full_author, "<")+1 : len(full_author)-1]`. -/

/-- The email-extraction slice of line 815; `none` models the runtime
panic of an out-of-bounds slice. -/
def shortlog_email_slice (full_author : List Char) : Option (List Char) :=
  goSlice full_author (goLastIndexChar full_author '<' + 1)
    ((full_author.length : Int) - 1)

theorem shortlog_slice_isSome_bound (line : List Char) :
    (shortlog_email_slice line).isSome = true
      ↔ goLastIndexChar line '<' + 1 ≤ (line.length : Int) - 1 := by
  have hge := goLastIndexChar_ge_neg_one line '<'
  unfold shortlog_email_slice goSlice
  split
  case isTrue h =>
    simp only [Option.isSome_some, true_iff]
    exact h.2.1
  case isFalse h =>
    simp only [Option.isSome_none, Bool.false_eq_true, false_iff]
    intro hc
    exact h ⟨by omega, hc, by omega⟩

theorem goLastIndexChar_succ_le_iff (line : List Char) :
    goLastIndexChar line '<' + 1 ≤ (line.length : Int) - 1
      ↔ line ≠ [] ∧ line.getLast? ≠ some '<' := by
  induction line using List.reverseRecOn with
  | nil => simp [goLastIndexChar]
  | append_singleton l a _ih =>
      rw [goLastIndexChar_concat]
      by_cases ha : a = '<'
      · rw [if_pos ha]
        subst ha
        constructor
        · intro h
          exfalso
          simp only [List.length_append, List.length_cons, List.length_nil] at h
          omega
        · rintro ⟨-, h2⟩
          exact absurd (List.getLast?_concat l) h2
      · rw [if_neg ha]
        have hlt := goLastIndexChar_lt_length l '<'
        constructor
        · intro _
          refine ⟨by simp, ?_⟩
          rw [List.getLast?_concat]
          intro hEq
          exact ha (Option.some.inj hEq)
        · intro _
          simp only [List.length_append, List.length_cons, List.length_nil]
          push_cast
          omega

/-- C10 counterexample: the empty line makes the extraction expression
`full_author[LastIndex(full_author, "<")+1 : len(full_author)-1]` slice
with bounds `[0:-1]`, out of range — a runtime panic, so the expression is
not total on every scanned line. -/
theorem C10_counterexample_empty_line : shortlog_email_slice [] = none := rfl

/-- C10 amended: the extraction slice of line 815 is in-bounds exactly for
the nonempty lines whose final character is not '<'; on the empty line
(and on a line ending in '<') the slice bounds are invalid and the code
panics. -/
theorem C10_amended_slice_in_bounds (line : List Char) :
    (shortlog_email_slice line).isSome = true
      ↔ line ≠ [] ∧ line.getLast? ≠ some '<' := by
  rw [shortlog_slice_isSome_bound, goLastIndexChar_succ_le_iff]

/-! ## JSON report domain split (`create_output_json`, lines 912-946).
For each grouped key: an empty email is replaced by `"!blank!"` with
domain `"!none!"`; otherwise `at_index := strings.LastIndex(Email, "@")`,
and if `at_index > 0` the domain is `Email[at_index+1:]`, else
`"!none!"`. -/

/-- The (report email key, domain key) computed at lines 919-931 for one
grouped entry's email. -/
def json_email_domain (email : List Char) : List Char × List Char :=
  if email = [] then ("!blank!".toList, "!none!".toList)
  else
    if 0 < goLastIndexChar email '@' then
      (email, email.drop ((goLastIndexChar email '@').toNat + 1))
    else (email, "!none!".toList)

theorem drop_append_cons (pre post : List Char) (c : Char) :
    (pre ++ c :: post).drop (pre.length + 1) = post := by
  rw [List.append_cons]
  have h : pre.length + 1 = (pre ++ [c]).length := by simp
  rw [h, List.drop_left]

/-- C8: the empty email is sentineled to `"!blank!"` with domain
`"!none!"`; an email that decomposes as a nonempty local part, a last '@'
and an '@'-free tail is keyed under that tail (the substring after its
last '@'); a nonempty email with no such decomposition (no '@' after a
nonempty local part) gets domain `"!none!"`. -/
theorem C8_domain_split (email : List Char) :
    (email = [] → json_email_domain email = ("!blank!".toList, "!none!".toList))
    ∧ (∀ pre post, email = pre ++ '@' :: post → '@' ∉ post → pre ≠ [] →
        json_email_domain email = (email, post))
    ∧ (email ≠ [] →
        (∀ pre post, email = pre ++ '@' :: post → '@' ∉ post → pre = []) →
        json_email_domain email = (email, "!none!".toList)) := by
  refine ⟨?_, ?_, ?_⟩
  · intro h
    rw [json_email_domain, if_pos h]
  · intro pre post hEq hpost hpre
    have hidx : goLastIndexChar email '@' = (pre.length : Int) := by
      rw [hEq]
      exact goLastIndexChar_append_cons pre post '@' hpost
    have hnempty : email ≠ [] := by
      rw [hEq]
      simp
    have hdrop : email.drop ((goLastIndexChar email '@').toNat + 1) = post := by
      rw [hidx, Int.toNat_natCast, hEq]
      exact drop_append_cons pre post '@'
    rw [json_email_domain, if_neg hnempty,
      if_pos (by rw [hidx]; exact_mod_cast List.length_pos.mpr hpre), hdrop]
  · intro hne hforall
    have hnotpos : ¬ 0 < goLastIndexChar email '@' := by
      intro hpos
      obtain ⟨pre, post, hEq, hpost, hlen⟩ :=
        goLastIndexChar_decomp email '@' (le_of_lt hpos)
      have hpre : pre = [] := hforall pre post hEq hpost
      rw [hpre] at hlen
      simp only [List.length_nil, Nat.cast_zero] at hlen
      omega
    rw [json_email_domain, if_neg hne, if_neg hnotpos]

/-- C8 witness: a concrete email with a domain is keyed under the
substring after its last '@'. -/
theorem C8_domain_split_witness :
    json_email_domain ("user@example.com".toList)
      = ("user@example.com".toList, "example.com".toList) :=
  (C8_domain_split ("user@example.com".toList)).2.1
    ("user".toList) ("example.com".toList) (by decide) (by decide) (by decide)

/-! ## Stage 4 emission and the role invariant (C9).
`params_containers` (line 719) keys the two shortlog invocations by role;
each scanned line emits an `EmailContext` carrying that role (line 825).
`role_reference` (line 917) is the display-label lookup table of
`create_output_json`. -/

/-- `params_containers` (line 719): the two shortlog invocations, keyed by
role. -/
def params_containers : List (Nat × List String) :=
  [(ROLE_AUTHOR, ["--no-pager", "shortlog", "--all", "-n", "-e", "-s"]),
   (ROLE_COMMITTER, ["--no-pager", "shortlog", "--all", "-n", "-e", "-s", "-c"])]

/-- `role_reference` (line 917): display labels for the three meaningful
role values. -/
def role_reference : List (Nat × String) :=
  [(ROLE_AUTHOR, ROLE_NAME_AUTHOR), (ROLE_COMMITTER, ROLE_NAME_COMMITTER),
   (ROLE_MASK_BOTH, ROLE_NAME_BOTH)]

/-- The `EmailContext` values Stage 4 emits for one repository
(lines 756-838): for each of the two role-keyed invocations, one
association per scanned output line, carrying the extracted email and that
invocation's role.  `outputs role` is the subprocess's stdout lines; a line
whose slice would panic emits nothing here (the claims about roles do not
depend on it). -/
def git_ops_shortlog_emit (repo : Repo) (outputs : Nat → List (List Char)) :
    List EmailContext :=
  (params_containers.map fun rp =>
    (outputs rp.1).filterMap fun line =>
      (shortlog_email_slice line).map fun email =>
        { repo := repo, emailAddress := email.asString, role := rp.1 }).flatten

theorem git_ops_shortlog_emit_roles (repo : Repo)
    (outputs : Nat → List (List Char)) (c : EmailContext)
    (hc : c ∈ git_ops_shortlog_emit repo outputs) :
    c.role = ROLE_AUTHOR ∨ c.role = ROLE_COMMITTER := by
  unfold git_ops_shortlog_emit at hc
  rw [List.mem_flatten] at hc
  obtain ⟨l, hl, hcl⟩ := hc
  rw [List.mem_map] at hl
  obtain ⟨rp, hrp, rfl⟩ := hl
  rw [List.mem_filterMap] at hcl
  obtain ⟨line, _, hmap⟩ := hcl
  have hrole : c.role = rp.1 := by
    cases hs : shortlog_email_slice line with
    | none => rw [hs] at hmap; simp at hmap
    | some email =>
        rw [hs] at hmap
        simp only [Option.map_some', Option.some.injEq] at hmap
        rw [← hmap]
  simp only [params_containers, List.mem_cons, List.mem_singleton] at hrp
  rcases hrp with rfl | hrp
  · left
    exact hrole
  · rcases List.mem_singleton.mp (by simpa using hrp) with rfl
    right
    exact hrole

theorem lor_role_cases (a r : Nat)
    (ha : a = 0 ∨ a = 1 ∨ a = 2 ∨ a = 3) (hr : r = 1 ∨ r = 2) :
    a ||| r = 1 ∨ a ||| r = 2 ∨ a ||| r = 3 := by
  rcases ha with rfl | rfl | rfl | rfl <;> rcases hr with rfl | rfl <;> decide

theorem emails_by_repo_values (contexts : List EmailContext)
    (hroles : ∀ c ∈ contexts, c.role = 1 ∨ c.role = 2)
    (m : List (EmailGroupByRepoKey × Nat))
    (hm : ∀ kv ∈ m, kv.2 = 1 ∨ kv.2 = 2 ∨ kv.2 = 3) :
    ∀ kv ∈ contexts.foldl emails_by_repo_step m,
      kv.2 = 1 ∨ kv.2 = 2 ∨ kv.2 = 3 := by
  induction contexts generalizing m with
  | nil => simpa using hm
  | cons c cs ih =>
      intro kv hkv
      rw [List.foldl_cons] at hkv
      have hold : lookupRole m (contextKey c) = 0
          ∨ lookupRole m (contextKey c) = 1 ∨ lookupRole m (contextKey c) = 2
          ∨ lookupRole m (contextKey c) = 3 := by
        unfold lookupRole
        cases hg : alGet m (contextKey c) with
        | none => left; rfl
        | some w =>
            have hw : w = 1 ∨ w = 2 ∨ w = 3 := by
              simpa using hm (contextKey c, w) (alGet_some_mem _ _ _ hg)
            simp only [Option.getD_some]
            tauto
      refine ih (fun c' hc' => hroles c' (List.mem_cons_of_mem _ hc')) _ ?_ kv hkv
      intro kv' hkv'
      unfold emails_by_repo_step at hkv'
      rcases mem_alSet _ _ _ _ hkv' with hEq | hmem
      · rw [hEq]
        exact lor_role_cases _ _ hold (hroles c (List.mem_cons_self c cs))
      · exact hm kv' hmem

/-- C9: with associations produced by the extractor (whose roles come from
the keys of `params_containers`), every accumulated role in the grouped
map is author, committer or both, never zero, and always present in the
`role_reference` display-label table. -/
theorem C9_role_values (inputs : List (Repo × (Nat → List (List Char))))
    (kv : EmailGroupByRepoKey × Nat)
    (hkv : kv ∈ emails_by_repo
      (inputs.map fun ro => git_ops_shortlog_emit ro.1 ro.2).flatten) :
    (kv.2 = ROLE_AUTHOR ∨ kv.2 = ROLE_COMMITTER ∨ kv.2 = ROLE_MASK_BOTH)
    ∧ kv.2 ≠ 0
    ∧ (alGet role_reference kv.2).isSome = true := by
  have hroles : ∀ c ∈ (inputs.map fun ro => git_ops_shortlog_emit ro.1 ro.2).flatten,
      c.role = 1 ∨ c.role = 2 := by
    intro c hc
    rw [List.mem_flatten] at hc
    obtain ⟨l, hl, hcl⟩ := hc
    rw [List.mem_map] at hl
    obtain ⟨ro, _, rfl⟩ := hl
    exact git_ops_shortlog_emit_roles ro.1 ro.2 c hcl
  have hval := emails_by_repo_values _ hroles [] (by simp) kv hkv
  refine ⟨hval, ?_, ?_⟩
  · rcases hval with h | h | h <;> omega
  · rcases hval with h | h | h <;> rw [h] <;> decide

/-- C9 witness: one repository whose two shortlog invocations each produce
the line `1<TAB>A <a@b>`; the grouped map holds the single key with role 3
(= both), which the label table resolves. -/
theorem C9_role_values_witness :
    ((⟨⟨"a@b", ⟨"r", "u", 1, false, ""⟩⟩, 3⟩ : EmailGroupByRepoKey × Nat)
      ∈ emails_by_repo
        (([(⟨"r", "u", 1, false, ""⟩, fun _ => ["1\tA <a@b>".toList])]
            : List (Repo × (Nat → List (List Char)))).map
          fun ro => git_ops_shortlog_emit ro.1 ro.2).flatten)
    ∧ (((3 : Nat) = ROLE_AUTHOR ∨ (3 : Nat) = ROLE_COMMITTER
          ∨ (3 : Nat) = ROLE_MASK_BOTH)
        ∧ (3 : Nat) ≠ 0
        ∧ (alGet role_reference 3).isSome = true) :=
  ⟨by decide, C9_role_values
    [(⟨"r", "u", 1, false, ""⟩, fun _ => ["1\tA <a@b>".toList])]
    ⟨⟨"a@b", ⟨"r", "u", 1, false, ""⟩⟩, 3⟩ (by decide)⟩
